import Mathlib

/-!
Verification of the prerequisite-expression parser of Course_crusader
(`src/coursecrusader/parsers/prerequisites.py`, class `PrerequisiteParser`).

The Python code is embedded shallowly over `List Char` (text is catalog
text; the regexes involved use only ASCII character classes, so `\s`, `\w`,
`[A-Z]` with `re.IGNORECASE` and `\d` are modelled by their ASCII meaning).
Each definition mirrors one method of the source class; the regex patterns
are concrete, so each is compiled by hand into an equivalent scanner over
the character list, reproducing the leftmost-match and backtracking
behaviour of Python `re` for that specific pattern.
-/

namespace CourseCrusader

/-! ## Character classes (ASCII models of the `re` classes used) -/

/-- Model of `\s` on ASCII text: the Python whitespace characters. -/
def isSpaceChar (c : Char) : Bool :=
  c = ' ' || c = '\t' || c = '\n' || c = '\x0d' || c = '\x0b' || c = '\x0c'

/-- Model of `[A-Z]` under `re.IGNORECASE` on ASCII text: any ASCII letter. -/
def isAlphaChar (c : Char) : Bool :=
  (65 ≤ c.toNat && c.toNat ≤ 90) || (97 ≤ c.toNat && c.toNat ≤ 122)

/-- Model of `\d` on ASCII text. -/
def isDigitChar (c : Char) : Bool :=
  48 ≤ c.toNat && c.toNat ≤ 57

/-- Model of `\w` (word character) on ASCII text, used for `\b` boundaries. -/
def isWordChar (c : Char) : Bool :=
  isAlphaChar c || isDigitChar c || c = '_'

/-- ASCII model of Python `str.upper` on one character. -/
def toUpperChar (c : Char) : Char :=
  if 97 ≤ c.toNat && c.toNat ≤ 122 then Char.ofNat (c.toNat - 32) else c

/-- ASCII model of Python `str.lower` on one character. -/
def toLowerChar (c : Char) : Char :=
  if 65 ≤ c.toNat && c.toNat ≤ 90 then Char.ofNat (c.toNat + 32) else c

/-! ## String utilities -/

/-- Python `str.upper`. -/
def upperStr (s : List Char) : List Char := s.map toUpperChar

/-- Python `str.lower`. -/
def lowerStr (s : List Char) : List Char := s.map toLowerChar

/-- Whether `p` occurs at the very start of `s` (literal match). -/
def startsWithStr : List Char → List Char → Bool
  | [], _ => true
  | _ :: _, [] => false
  | p :: ps, c :: cs => p = c && startsWithStr ps cs

/-- Python `p in s` substring containment. -/
def hasSub (p : List Char) : List Char → Bool
  | [] => p.isEmpty
  | c :: t => startsWithStr p (c :: t) || hasSub p t

/-- Python `str.strip()`: drop leading and trailing whitespace. -/
def stripStr (s : List Char) : List Char :=
  ((s.dropWhile isSpaceChar).reverse.dropWhile isSpaceChar).reverse

/-- Model of `re.sub(r'\s+', ' ', ·)`: each whitespace run becomes one space.
The flag records whether the previous character was part of a whitespace run. -/
def collapseWsGo (prevSpace : Bool) : List Char → List Char
  | [] => []
  | c :: t =>
    if isSpaceChar c then
      if prevSpace then collapseWsGo true t else ' ' :: collapseWsGo true t
    else c :: collapseWsGo false t

/-- Python `str.replace(pat, rep)` for a non-empty `pat`, scanning left to
right and continuing after each replacement.  The fuel argument (one unit
per character examined) makes the recursion structural; it is always called
with fuel equal to the length of the string, which suffices because every
step consumes at least one character. -/
def replaceSub (pat rep : List Char) : Nat → List Char → List Char
  | 0, s => s
  | _ + 1, [] => []
  | fuel + 1, c :: t =>
    if startsWithStr pat (c :: t) then
      rep ++ replaceSub pat rep fuel ((c :: t).drop pat.length)
    else c :: replaceSub pat rep fuel t

/-! ## `PrerequisiteParser._clean_text` -/

/-- Embedding of `PrerequisiteParser._clean_text`:
`re.sub(r'\s+', ' ', text.strip())`, then `re.sub(r'[;,]\s*$', '', text)`
(drop the trailing whitespace run when the character before it is `;` or `,`,
dropping that character too), then `replace(' OR ', ' or ')` and
`replace(' AND ', ' and ')`. -/
def clean_text (s : List Char) : List Char :=
  let s1 := collapseWsGo false (stripStr s)
  let r2 := s1.reverse.dropWhile isSpaceChar
  let s2 := match r2 with
    | c :: t => if c = ';' || c = ',' then t.reverse else s1
    | [] => s1
  let s3 := replaceSub " OR ".data " or ".data s2.length s2
  replaceSub " AND ".data " and ".data s3.length s3

/-! ## `PrerequisiteParser._extract_courses`

The course regex is `\b([A-Z]{2,6})\s*(\d{3,4}[A-Z]?)\b` compiled with
`re.IGNORECASE` and scanned with `finditer`.  Because the three character
classes involved (letters, whitespace, digits) are pairwise disjoint, the
backtracking search of the Python engine at a given start position is
equivalent to the following direct analysis of the maximal runs:

* `\b` then `[A-Z]{2,6}`: the previous character must not be a word
  character and the maximal letter run must have length between 2 and 6
  (a longer run can never be completed: any shorter greedy choice leaves a
  letter where a digit or whitespace is required);
* `\s*`: skip the maximal whitespace run (shorter choices leave whitespace
  where a digit is required);
* `(\d{3,4}[A-Z]?)\b`: the maximal digit run must have length 3 or 4; an
  optional trailing letter is taken when the character after it is not a
  word character; the final `\b` rules out a following word character. -/

/-- One attempt of the course pattern anchored at the current position.
`prev` is the character just before the position (`none` at the start of the
text).  On success, returns the two capture groups (department letters and
number with optional trailing letter, both as matched, before upper-casing)
and the remaining text after the match. -/
def matchCourseAt (prev : Option Char) (s : List Char) : Option (List Char × List Char × List Char) :=
  let boundary := match prev with
    | none => true
    | some p => !isWordChar p
  if !boundary then none
  else
    let ls := s.takeWhile isAlphaChar
    let r1 := s.dropWhile isAlphaChar
    if ls.length < 2 || 6 < ls.length then none
    else
      let r2 := r1.dropWhile isSpaceChar
      let ds := r2.takeWhile isDigitChar
      let r3 := r2.dropWhile isDigitChar
      if ds.length < 3 || 4 < ds.length then none
      else
        match r3 with
        | [] => some (ls, ds, [])
        | c :: rest =>
          if isAlphaChar c then
            match rest with
            | [] => some (ls, ds ++ [c], [])
            | d :: _ => if isWordChar d then none else some (ls, ds ++ [c], rest)
          else if isWordChar c then none
          else some (ls, ds, r3)

/-- The `finditer` scan: try the pattern at each position, move one
character on failure, continue after the whole match on success (Python
matches never overlap).  `prev` tracks the character before the current
position for the `\b` test; after a match it is the last matched character,
which is always the last character of the number group.  The fuel starts at
the length of the text, which suffices because every step consumes at least
one character. -/
def scanCoursesGo : Nat → Option Char → List Char → List (List Char)
  | 0, _, _ => []
  | _ + 1, _, [] => []
  | fuel + 1, prev, c :: t =>
    match matchCourseAt prev (c :: t) with
    | some (dept, num, rest) =>
      (upperStr dept ++ ' ' :: upperStr num) :: scanCoursesGo fuel (num.getLast?) rest
    | none => scanCoursesGo fuel (some c) t

/-- Embedding of `PrerequisiteParser._extract_courses`: every match of the
course pattern, normalized to `"DEPT NUMBER"` by upper-casing both groups
and joining them with a single space. -/
def extract_courses (s : List Char) : List (List Char) :=
  scanCoursesGo s.length none s

/-! ## `PrerequisiteParser._extract_non_course_requirements` -/

/-- The `NON_COURSE_KEYWORDS` list of the source, verbatim. -/
def NON_COURSE_KEYWORDS : List (List Char) :=
  [ "permission of instructor".data
  , "instructor consent".data
  , "department consent".data
  , "instructor permission".data
  , "junior standing".data
  , "senior standing".data
  , "sophomore standing".data
  , "freshman standing".data
  , "graduate standing".data
  , "admission to".data
  , "minimum grade".data
  , "grade of".data
  , "gpa".data
  , "open only to".data
  , "restricted to".data
  , "majors only".data
  , "concurrent enrollment".data
  , "consent required".data
  , "departmental approval".data
  , "by invitation".data
  , "audition required".data
  , "portfolio review".data
  , "prerequisite waiver".data ]

/-- Embedding of `PrerequisiteParser._extract_non_course_requirements`:
the keywords that occur in the lower-cased text, in vocabulary order. -/
def extract_non_course_requirements (s : List Char) : List (List Char) :=
  NON_COURSE_KEYWORDS.filter (fun k => hasSub k (lowerStr s))

/-! ## The result tree

The Python parser returns nested dictionaries `{"and": [...]}` / `{"or": [...]}`
whose list elements are either course-code strings or nested dictionaries. -/

/-- A prerequisite expression tree: a course-code leaf, or an `and`/`or`
node over an ordered list of children. -/
inductive Expr where
  | leaf : List Char → Expr
  | andE : List Expr → Expr
  | orE : List Expr → Expr

/-! ## Parenthesized group scanning

`_parse_nested` runs `re.finditer(r'\(([^)]+)\)', text)`.  For this pattern
the greedy `[^)]+` run after a `(` is the maximal run of characters other
than `)`; the match succeeds exactly when that run is non-empty and is
followed by `)` (no shorter choice of the run can help, since the character
after any shorter run is still not `)`). -/

/-- The `finditer` scan for `\(([^)]+)\)`: for each match, in order, the
triple (text before the match, captured group, text after the match), which
is what `_parse_nested` reads off the single match via `.start()`,
`.group(1)` and `.end()`.  `acc` is the text already scanned; fuel as in
`scanCoursesGo`. -/
def scanParenGo : Nat → List Char → List Char → List (List Char × List Char × List Char)
  | 0, _, _ => []
  | _ + 1, _, [] => []
  | fuel + 1, acc, c :: t =>
    if c = '(' then
      let g := t.takeWhile (fun d => !(d = ')'))
      let r := t.dropWhile (fun d => !(d = ')'))
      match r with
      | ')' :: rest =>
        if g.isEmpty then scanParenGo fuel (acc ++ [c]) t
        else (acc, g, rest) :: scanParenGo fuel (acc ++ '(' :: (g ++ [')'])) rest
      | _ => scanParenGo fuel (acc ++ [c]) t
    else scanParenGo fuel (acc ++ [c]) t

/-- All parenthesized groups of the text, as `_parse_nested` sees them. -/
def parenGroups (text : List Char) : List (List Char × List Char × List Char) :=
  scanParenGo text.length [] text

/-! ## Structure determination -/

/-- Embedding of `PrerequisiteParser._parse_complex`: with both `' and '`
and `' or '` present (in the lower-cased text) the parse is refused (`None`);
otherwise the fallback `{"and": courses}`. -/
def parse_complex (text : List Char) (courses : List (List Char)) : Option Expr :=
  if hasSub " and ".data (lowerStr text) && hasSub " or ".data (lowerStr text) then none
  else some (.andE (courses.map .leaf))

/-- Embedding of `PrerequisiteParser._parse_nested`: zero parenthesized
groups fall back to `_parse_complex`; exactly one group builds the inner
node from the courses inside the group (`or` when `' or '` occurs in the
lower-cased group, else `and`) and combines it with the courses outside the
group; two or more groups are refused (`None`). -/
def parse_nested (text : List Char) (courses : List (List Char)) : Option Expr :=
  match parenGroups text with
  | [] => parse_complex text courses
  | [(beforeG, g, afterG)] =>
    let parenCourses := extract_courses g
    let parenStruct : Expr :=
      if hasSub " or ".data (lowerStr g) then .orE (parenCourses.map .leaf)
      else .andE (parenCourses.map .leaf)
    let outside := extract_courses (stripStr beforeG ++ ' ' :: stripStr afterG)
    if hasSub " and ".data (lowerStr text) && hasSub "(".data text then
      some (.andE (outside.map .leaf ++ [parenStruct]))
    else if hasSub " or ".data (lowerStr text) then
      some (.orE (outside.map .leaf ++ [parenStruct]))
    else some parenStruct
  | _ => none

/-- Embedding of `PrerequisiteParser._determine_structure`.  The source's
final three branches (`has_and`, single course, several courses without a
connector) all return `{"and": courses}`, so they are merged here. -/
def determine_structure (text : List Char) (courses : List (List Char)) : Option Expr :=
  if hasSub "(".data text then parse_nested text courses
  else if hasSub " and ".data (lowerStr text) && hasSub " or ".data (lowerStr text) then
    parse_complex text courses
  else if hasSub " and ".data (lowerStr text) then some (.andE (courses.map .leaf))
  else if hasSub " or ".data (lowerStr text) then some (.orE (courses.map .leaf))
  else some (.andE (courses.map .leaf))

/-! ## `PrerequisiteParser.parse` -/

/-- Embedding of `PrerequisiteParser.parse`.  The `try`/`except` of the
source wraps only calls that are total on strings (regex scans and list
building), so the `except` branch is unreachable and the embedding is the
direct composition of the steps.  Python's
`if not prereq_text or not prereq_text.strip()` is equivalent to the
stripped text being empty. -/
def parse (prereq_text : List Char) : Option Expr × Bool :=
  if (stripStr prereq_text).isEmpty then (none, true)
  else if (extract_courses (clean_text prereq_text)).isEmpty then
    if !(extract_non_course_requirements (clean_text prereq_text)).isEmpty then (none, false)
    else (none, true)
  else
    ((determine_structure (clean_text prereq_text) (extract_courses (clean_text prereq_text))),
     (determine_structure (clean_text prereq_text) (extract_courses (clean_text prereq_text))).isSome)

/-! ## `PrerequisiteParser.extract_corequisites`

The pattern is `corequisite[s]?\s*:?\s*(.+?)(?:[.;]|$)` with `re.IGNORECASE`
and `re.search`.  The scanner below reproduces the engine's priority order:
each optional or greedy element prefers to consume, backtracking from the
longest alternative down, and the lazy `(.+?)` grows from one character up,
testing `[.;]` before `$` after each growth step; `.` never matches a
newline, and `$` holds at the end of the text or before a final newline. -/

/-- The lazy `(.+?)(?:[.;]|$)` tail: grow the capture one character at a
time (never across a newline), stopping at the first point where `.` or `;`
follows, or where the text ends (possibly up to one final newline).
Returns the captured group.  Fuel as before. -/
def lazyCaptureGo : Nat → List Char → List Char → Option (List Char)
  | 0, _, _ => none
  | _ + 1, _, [] => none
  | fuel + 1, acc, c :: t =>
    if c = '\n' then none
    else
      match t with
      | [] => some (acc ++ [c])
      | d :: t2 =>
        if d = '.' || d = ';' then some (acc ++ [c])
        else if d = '\n' && t2.isEmpty then some (acc ++ [c])
        else lazyCaptureGo fuel (acc ++ [c]) t

/-- Suffixes of `s` after consuming part of its leading whitespace run,
longest consumption first: the candidate continuations of a greedy `\s*`. -/
def wsOptions (s : List Char) : List (List Char) :=
  let k := (s.takeWhile isSpaceChar).length
  (List.range (k + 1)).map (fun i => s.drop (k - i))

/-- The part of the corequisite pattern after the literal keyword:
`[s]?\s*:?\s*(.+?)(?:[.;]|$)`, searched in the engine's priority order.
Returns the captured group of the first configuration that succeeds. -/
def coreqAfterKeyword (s : List Char) : Option (List Char) :=
  let sOpts : List (List Char) := match s with
    | c :: t => if c = 's' || c = 'S' then [t, s] else [s]
    | [] => [[]]
  sOpts.findSome? (fun s1 =>
    (wsOptions s1).findSome? (fun s2 =>
      let colonOpts : List (List Char) := match s2 with
        | ':' :: t => [t, s2]
        | _ => [s2]
      colonOpts.findSome? (fun s3 =>
        (wsOptions s3).findSome? (fun s4 =>
          lazyCaptureGo s4.length [] s4))))

/-- The `re.search` scan: try the whole pattern at each position from the
left; the literal `corequisite` is matched case-insensitively. -/
def coreqSearch : Nat → List Char → Option (List Char)
  | 0, _ => none
  | fuel + 1, s =>
    if lowerStr (s.take 11) = "corequisite".data then
      match coreqAfterKeyword (s.drop 11) with
      | some g => some g
      | none =>
        match s with
        | [] => none
        | _ :: t => coreqSearch fuel t
    else
      match s with
      | [] => none
      | _ :: t => coreqSearch fuel t

/-- Embedding of `PrerequisiteParser.extract_corequisites`: `None` on empty
input or when the pattern does not match; otherwise the courses extracted
from the captured span, with an empty course list also collapsed to `None`. -/
def extract_corequisites (text : List Char) : Option (List (List Char)) :=
  if text.isEmpty then none
  else
    match coreqSearch (text.length + 1) text with
    | some captured =>
      if (extract_courses captured).isEmpty then none
      else some (extract_courses captured)
    | none => none

/-! ## Properties under verification -/

/-- An ASCII uppercase letter, `[A-Z]`. -/
def isUpperLetter (c : Char) : Bool :=
  65 ≤ c.toNat && c.toNat ≤ 90

/-- Decides the canonical course-code grammar `^[A-Z]{2,6} \d{3,4}[A-Z]?$`:
2 to 6 uppercase letters, a single space, 3 to 4 digits, an optional
trailing uppercase letter, and nothing else. -/
def canonicalCourse (s : List Char) : Bool :=
  let dept := s.takeWhile isUpperLetter
  let r1 := s.dropWhile isUpperLetter
  (2 ≤ dept.length && dept.length ≤ 6) &&
    match r1 with
    | ' ' :: r2 =>
      let ds := r2.takeWhile isDigitChar
      let r3 := r2.dropWhile isDigitChar
      (3 ≤ ds.length && ds.length ≤ 4) &&
        match r3 with
        | [] => true
        | [c] => isUpperLetter c
        | _ => false
    | _ => false

mutual

/-- Every leaf of the tree satisfies the canonical course-code grammar. -/
def leavesCanonical : Expr → Bool
  | .leaf c => canonicalCourse c
  | .andE es => leavesCanonicalList es
  | .orE es => leavesCanonicalList es

/-- `leavesCanonical` over a child list. -/
def leavesCanonicalList : List Expr → Bool
  | [] => true
  | e :: es => leavesCanonical e && leavesCanonicalList es

end

mutual

/-- Some `and`/`or` node of the tree has an empty child list. -/
def hasEmptyNode : Expr → Bool
  | .leaf _ => false
  | .andE es => es.isEmpty || hasEmptyNodeList es
  | .orE es => es.isEmpty || hasEmptyNodeList es

/-- `hasEmptyNode` over a child list. -/
def hasEmptyNodeList : List Expr → Bool
  | [] => false
  | e :: es => hasEmptyNode e || hasEmptyNodeList es

end

/-! ## Character-level lemmas -/

theorem upperLetter_ofNat_sub (n : Nat) (h1 : 97 ≤ n) (h2 : n ≤ 122) :
    isUpperLetter (Char.ofNat (n - 32)) = true := by
  interval_cases n <;> decide

theorem upper_of_alpha (c : Char) (h : isAlphaChar c = true) :
    isUpperLetter (toUpperChar c) = true := by
  simp only [isAlphaChar, Bool.or_eq_true, Bool.and_eq_true, decide_eq_true_eq] at h
  simp only [toUpperChar]
  rcases h with ⟨h1, h2⟩ | ⟨h1, h2⟩
  · rw [if_neg (by simp; omega)]
    simp only [isUpperLetter, Bool.and_eq_true, decide_eq_true_eq]
    exact ⟨h1, h2⟩
  · rw [if_pos (by simp; omega)]
    exact upperLetter_ofNat_sub _ h1 h2

theorem toUpper_of_digit (c : Char) (h : isDigitChar c = true) :
    toUpperChar c = c := by
  simp only [isDigitChar, Bool.and_eq_true, decide_eq_true_eq] at h
  simp only [toUpperChar]
  rw [if_neg (by simp; omega)]

theorem not_digit_of_upper (c : Char) (h : isUpperLetter c = true) :
    isDigitChar c = false := by
  simp only [isUpperLetter, Bool.and_eq_true, decide_eq_true_eq] at h
  simp only [isDigitChar]
  simp; omega

/-! ## List-scanning lemmas -/

theorem takeWhile_all {p : Char → Bool} {l : List Char} (h : ∀ x ∈ l, p x = true) :
    l.takeWhile p = l ∧ l.dropWhile p = [] := by
  induction l with
  | nil => simp
  | cons a t ih =>
    have ha : p a = true := h a (by simp)
    have ht := ih (fun x hx => h x (by simp [hx]))
    simp [List.takeWhile_cons, List.dropWhile_cons, ha, ht.1, ht.2]

theorem takeWhile_append_cons {p : Char → Bool} {l : List Char} (c : Char) (r : List Char)
    (hall : ∀ x ∈ l, p x = true) (hc : p c = false) :
    (l ++ c :: r).takeWhile p = l ∧ (l ++ c :: r).dropWhile p = c :: r := by
  induction l with
  | nil => simp [List.takeWhile_cons, List.dropWhile_cons, hc]
  | cons a t ih =>
    have ha : p a = true := hall a (by simp)
    have ht := ih (fun x hx => hall x (by simp [hx]))
    simp [List.takeWhile_cons, List.dropWhile_cons, ha, ht.1, ht.2]

/-! ## Canonical form of extracted course codes -/

theorem canonicalCourse_build (ls ds opt : List Char)
    (hls : ∀ c ∈ ls, isAlphaChar c = true) (hl2 : 2 ≤ ls.length) (hl6 : ls.length ≤ 6)
    (hds : ∀ c ∈ ds, isDigitChar c = true) (hd3 : 3 ≤ ds.length) (hd4 : ds.length ≤ 4)
    (hopt : opt = [] ∨ ∃ c, opt = [c] ∧ isAlphaChar c = true) :
    canonicalCourse (upperStr ls ++ ' ' :: upperStr (ds ++ opt)) = true := by
  have hUls : ∀ x ∈ upperStr ls, isUpperLetter x = true := by
    intro x hx
    obtain ⟨c, hc, rfl⟩ := List.mem_map.1 hx
    exact upper_of_alpha c (hls c hc)
  have hsp : isUpperLetter ' ' = false := by decide
  have hsplit := takeWhile_append_cons (p := isUpperLetter) ' ' (upperStr (ds ++ opt)) hUls hsp
  have hds' : upperStr ds = ds := by
    have : ∀ c ∈ ds, toUpperChar c = c := fun c hc => toUpper_of_digit c (hds c hc)
    simpa [upperStr] using List.map_congr_left this
  have hlen : (upperStr ls).length = ls.length := List.length_map _ _
  simp only [canonicalCourse, hsplit.1, hsplit.2]
  rcases hopt with rfl | ⟨c, rfl, hc⟩
  · have hall := takeWhile_all (p := isDigitChar) hds
    simp only [List.append_nil, hds']
    simp [hall.1, hall.2, hlen]
    omega
  · have hU : isUpperLetter (toUpperChar c) = true := upper_of_alpha c hc
    have hUd : isDigitChar (toUpperChar c) = false := by
      have := not_digit_of_upper _ hU
      exact this
    have hsplit2 := takeWhile_append_cons (p := isDigitChar) (toUpperChar c) [] hds hUd
    have hds2 : ds.map toUpperChar = ds := by simpa [upperStr] using hds'
    have hMap : upperStr (ds ++ [c]) = ds ++ [toUpperChar c] := by
      simp only [upperStr, List.map_append, List.map_cons, List.map_nil, hds2]
    simp only [hMap, hsplit2.1, hsplit2.2]
    simp [hlen, hU]
    omega

theorem matchCourseAt_canonical (prev : Option Char) (s dept num rest : List Char)
    (h : matchCourseAt prev s = some (dept, num, rest)) :
    canonicalCourse (upperStr dept ++ ' ' :: upperStr num) = true := by
  have hls : ∀ c ∈ s.takeWhile isAlphaChar, isAlphaChar c = true :=
    fun c hc => List.mem_takeWhile_imp hc
  have hds : ∀ c ∈ ((s.dropWhile isAlphaChar).dropWhile isSpaceChar).takeWhile isDigitChar,
      isDigitChar c = true := fun c hc => List.mem_takeWhile_imp hc
  simp only [matchCourseAt] at h
  split at h
  · exact absurd h (by simp)
  · split at h
    · exact absurd h (by simp)
    · rename_i hguardL
      split at h
      · exact absurd h (by simp)
      · rename_i hguardD
        simp only [Bool.or_eq_true, decide_eq_true_eq, not_or, Bool.not_eq_true] at hguardL hguardD
        split at h
        · simp only [Option.some_inj, Prod.mk.injEq] at h
          obtain ⟨h1, h2, _⟩ := h
          subst h1; subst h2
          have := canonicalCourse_build (s.takeWhile isAlphaChar)
            (((s.dropWhile isAlphaChar).dropWhile isSpaceChar).takeWhile isDigitChar) []
            hls (by omega) (by omega) hds (by omega) (by omega) (Or.inl rfl)
          simpa using this
        · rename_i c rest' hc
          split at h
          · rename_i halpha
            split at h
            · simp only [Option.some_inj, Prod.mk.injEq] at h
              obtain ⟨h1, h2, _⟩ := h
              subst h1; subst h2
              exact canonicalCourse_build _ _ [c] hls (by omega) (by omega) hds (by omega) (by omega)
                (Or.inr ⟨c, rfl, halpha⟩)
            · split at h
              · exact absurd h (by simp)
              · simp only [Option.some_inj, Prod.mk.injEq] at h
                obtain ⟨h1, h2, _⟩ := h
                subst h1; subst h2
                exact canonicalCourse_build _ _ [c] hls (by omega) (by omega) hds (by omega) (by omega)
                  (Or.inr ⟨c, rfl, halpha⟩)
          · split at h
            · exact absurd h (by simp)
            · simp only [Option.some_inj, Prod.mk.injEq] at h
              obtain ⟨h1, h2, _⟩ := h
              subst h1; subst h2
              have := canonicalCourse_build (s.takeWhile isAlphaChar)
                (((s.dropWhile isAlphaChar).dropWhile isSpaceChar).takeWhile isDigitChar) []
                hls (by omega) (by omega) hds (by omega) (by omega) (Or.inl rfl)
              simpa using this

theorem scanCoursesGo_canonical (fuel : Nat) :
    ∀ prev s c, c ∈ scanCoursesGo fuel prev s → canonicalCourse c = true := by
  induction fuel with
  | zero => intro prev s c hc; simp [scanCoursesGo] at hc
  | succ n ih =>
    intro prev s c hc
    match s with
    | [] => simp [scanCoursesGo] at hc
    | a :: t =>
      rw [scanCoursesGo] at hc
      cases hm : matchCourseAt prev (a :: t) with
      | none => rw [hm] at hc; exact ih _ _ _ hc
      | some trip =>
        obtain ⟨dept, num, rest⟩ := trip
        rw [hm] at hc
        simp only [List.mem_cons] at hc
        rcases hc with rfl | hc
        · exact matchCourseAt_canonical _ _ _ _ _ hm
        · exact ih _ _ _ hc

theorem extract_courses_canonical (s : List Char) :
    ∀ c ∈ extract_courses s, canonicalCourse c = true :=
  fun _c hc => scanCoursesGo_canonical _ _ _ _ hc

/-! ## Tree-level helper lemmas -/

theorem leavesCanonicalList_append (l1 l2 : List Expr) :
    leavesCanonicalList (l1 ++ l2) = (leavesCanonicalList l1 && leavesCanonicalList l2) := by
  induction l1 with
  | nil => simp [leavesCanonicalList]
  | cons e es ih => simp [leavesCanonicalList, ih, Bool.and_assoc]

theorem leavesCanonicalList_map_leaf (cs : List (List Char))
    (h : ∀ c ∈ cs, canonicalCourse c = true) :
    leavesCanonicalList (cs.map .leaf) = true := by
  induction cs with
  | nil => simp [leavesCanonicalList]
  | cons c cs ih =>
    simp only [List.map_cons, leavesCanonicalList, leavesCanonical, Bool.and_eq_true]
    exact ⟨h c (by simp), ih (fun x hx => h x (by simp [hx]))⟩

theorem hasEmptyNodeList_append (l1 l2 : List Expr) :
    hasEmptyNodeList (l1 ++ l2) = (hasEmptyNodeList l1 || hasEmptyNodeList l2) := by
  induction l1 with
  | nil => simp [hasEmptyNodeList]
  | cons e es ih => simp [hasEmptyNodeList, ih, Bool.or_assoc]

theorem hasEmptyNodeList_map_leaf (cs : List (List Char)) :
    hasEmptyNodeList (cs.map .leaf) = false := by
  induction cs with
  | nil => simp [hasEmptyNodeList]
  | cons c cs ih => simp [hasEmptyNodeList, hasEmptyNode, ih]

/-! ## Shape inversion for the structure builder -/

theorem parse_complex_inv {text : List Char} {courses : List (List Char)} {t : Expr}
    (h : parse_complex text courses = some t) : t = .andE (courses.map .leaf) := by
  unfold parse_complex at h
  split at h
  · exact absurd h (by simp)
  · simpa using h.symm

/-- Every tree `_parse_nested` can return: the `_parse_complex` fallback, or
one of the three combinations around the single parenthesized group. -/
theorem parse_nested_inv {text : List Char} {courses : List (List Char)} {t : Expr}
    (h : parse_nested text courses = some t) :
    t = .andE (courses.map .leaf) ∨
    ∃ bg g ag, parenGroups text = [(bg, g, ag)] ∧
      ∃ inner, (inner = Expr.orE ((extract_courses g).map .leaf) ∨
                inner = Expr.andE ((extract_courses g).map .leaf)) ∧
        (t = .andE ((extract_courses (stripStr bg ++ ' ' :: stripStr ag)).map .leaf ++ [inner]) ∨
         t = .orE ((extract_courses (stripStr bg ++ ' ' :: stripStr ag)).map .leaf ++ [inner]) ∨
         t = inner) := by
  unfold parse_nested at h
  split at h
  · exact Or.inl (parse_complex_inv h)
  · rename_i bg g ag hgs
    refine Or.inr ⟨bg, g, ag, hgs, ?_⟩
    simp only at h
    split at h
    · split at h
      · exact ⟨_, Or.inl rfl, Or.inl (by simpa using h.symm)⟩
      · exact ⟨_, Or.inr rfl, Or.inl (by simpa using h.symm)⟩
    · split at h
      · split at h
        · exact ⟨_, Or.inl rfl, Or.inr (Or.inl (by simpa using h.symm))⟩
        · exact ⟨_, Or.inr rfl, Or.inr (Or.inl (by simpa using h.symm))⟩
      · split at h
        · exact ⟨_, Or.inl rfl, Or.inr (Or.inr (by simpa using h.symm))⟩
        · exact ⟨_, Or.inr rfl, Or.inr (Or.inr (by simpa using h.symm))⟩
  · exact absurd h (by simp)

/-- Every tree `_determine_structure` can return. -/
theorem determine_structure_inv {text : List Char} {courses : List (List Char)} {t : Expr}
    (h : determine_structure text courses = some t) :
    t = .andE (courses.map .leaf) ∨ t = .orE (courses.map .leaf) ∨
    ∃ bg g ag, parenGroups text = [(bg, g, ag)] ∧
      ∃ inner, (inner = Expr.orE ((extract_courses g).map .leaf) ∨
                inner = Expr.andE ((extract_courses g).map .leaf)) ∧
        (t = .andE ((extract_courses (stripStr bg ++ ' ' :: stripStr ag)).map .leaf ++ [inner]) ∨
         t = .orE ((extract_courses (stripStr bg ++ ' ' :: stripStr ag)).map .leaf ++ [inner]) ∨
         t = inner) := by
  unfold determine_structure at h
  split at h
  · rcases parse_nested_inv h with h1 | h2
    · exact Or.inl h1
    · exact Or.inr (Or.inr h2)
  · split at h
    · exact Or.inl (parse_complex_inv h)
    · split at h
      · exact Or.inl (by simpa using h.symm)
      · split at h
        · exact Or.inr (Or.inl (by simpa using h.symm))
        · exact Or.inl (by simpa using h.symm)

/-! ## Inversion of `parse` on a successful tree -/

theorem clean_text_nil {s : List Char} (h : (stripStr s).isEmpty = true) :
    clean_text s = [] := by
  unfold clean_text
  rw [List.isEmpty_iff] at h
  rw [h]
  rfl

theorem parse_some_inv {s : List Char} {t : Expr} {b : Bool} (h : parse s = (some t, b)) :
    determine_structure (clean_text s) (extract_courses (clean_text s)) = some t ∧
    (extract_courses (clean_text s)).isEmpty = false ∧ b = true := by
  unfold parse at h
  split at h
  · exact absurd h (by simp)
  · split at h
    · split at h
      · exact absurd h (by simp)
      · exact absurd h (by simp)
    · rename_i hcourses
      have hcf : (extract_courses (clean_text s)).isEmpty = false := by
        cases hx : (extract_courses (clean_text s)).isEmpty
        · rfl
        · exact absurd hx hcourses
      rw [Prod.mk.injEq] at h
      obtain ⟨h1, h2⟩ := h
      refine ⟨h1, hcf, ?_⟩
      rw [← h2, h1]
      rfl

theorem hasSub_single (c : Char) (s : List Char) : hasSub [c] s = true ↔ c ∈ s := by
  induction s with
  | nil => simp [hasSub]
  | cons a t ih => simp [hasSub, startsWithStr, ih, List.mem_cons]

theorem scanParen_mem (fuel : Nat) : ∀ acc s, scanParenGo fuel acc s ≠ [] → '(' ∈ s := by
  induction fuel with
  | zero => intro acc s h; simp [scanParenGo] at h
  | succ n ih =>
    intro acc s h
    match s with
    | [] => simp [scanParenGo] at h
    | c :: t =>
      by_cases hc : c = '('
      · simp [hc]
      · rw [scanParenGo, if_neg hc] at h
        exact List.mem_cons_of_mem _ (ih _ _ h)

theorem determine_structure_none_of_ambiguous {text : List Char} {courses : List (List Char)}
    (hand : hasSub " and ".data (lowerStr text) = true)
    (hor : hasSub " or ".data (lowerStr text) = true)
    (hpar : hasSub "(".data text = false) :
    determine_structure text courses = none := by
  unfold determine_structure
  simp [hpar, hand, hor, parse_complex]

theorem hasEmptyNode_node_of_courses (cs : List (List Char)) (hne : cs.isEmpty = false) :
    hasEmptyNode (Expr.andE (cs.map .leaf)) = false ∧
    hasEmptyNode (Expr.orE (cs.map .leaf)) = false := by
  cases cs with
  | nil => simp at hne
  | cons c cst =>
    constructor <;>
      simp [hasEmptyNode, List.map_cons, hasEmptyNodeList, hasEmptyNodeList_map_leaf cst]

/-! ## The claims -/

/-- C1, counterexample. The claim states that every input whose normalized
form contains both `" and "` and `" or "` (case-insensitively) and no
parenthesis yields `(null, false)`.  The input `"x and y or z"` satisfies
all three conditions, yet `parse` returns `(null, true)`, because no course
code and no qualitative keyword occurs in it. -/
theorem ambiguous_no_courses_parses_true :
    parse "x and y or z".data = (none, true) ∧
    hasSub " and ".data (lowerStr (clean_text "x and y or z".data)) = true ∧
    hasSub " or ".data (lowerStr (clean_text "x and y or z".data)) = true ∧
    hasSub "(".data (clean_text "x and y or z".data) = false := by
  refine ⟨rfl, by decide, by decide, by decide⟩

/-- C1, amended. For every input whose cleaned text contains both `" and "`
and `" or "` (in the lower-cased text) and no `(`, and from which course
extraction finds at least one course code, `parse` returns `(null, false)`. -/
theorem ambiguous_with_courses_refused (s : List Char)
    (hand : hasSub " and ".data (lowerStr (clean_text s)) = true)
    (hor : hasSub " or ".data (lowerStr (clean_text s)) = true)
    (hpar : hasSub "(".data (clean_text s) = false)
    (hc : (extract_courses (clean_text s)).isEmpty = false) :
    parse s = (none, false) := by
  unfold parse
  split
  · rename_i hstrip
    rw [clean_text_nil hstrip] at hc
    exact absurd hc (by decide)
  · split
    · rename_i hcemp
      rw [hcemp] at hc
      exact absurd hc (by decide)
    · rw [determine_structure_none_of_ambiguous hand hor hpar]
      rfl

/-- C1, witness for the amended theorem, at the spec's own scenario 7. -/
theorem ambiguous_with_courses_refused_wit :
    parse "CSE 1010 and CSE 1729 or MATH 2210Q".data = (none, false) :=
  ambiguous_with_courses_refused _ (by decide) (by decide) (by decide) (by decide)

/-- C2. On `"CSE 2100 and (MATH 2210Q or MATH 2410Q)"` the parser returns
the tree `{"and": ["CSE 2100", {"or": ["MATH 2210Q", "MATH 2410Q"]}]}` with
`parsed = true`: the single parenthesized group becomes an `or` node (the
group contains `" or "`) and the outer `" and "` makes the top level an
`and` over the outside leaf and the inner node. -/
theorem nested_example_parse :
    parse "CSE 2100 and (MATH 2210Q or MATH 2410Q)".data =
      (some (.andE [.leaf "CSE 2100".data,
                    .orE [.leaf "MATH 2210Q".data, .leaf "MATH 2410Q".data]]), true) := rfl

/-- C3, counterexample. The claim states that no `And`/`Or` node of a
returned tree has zero children, in particular when a parenthesized group
holds no course code.  On `"CSE 1010 and (honors)"` the group `honors`
contains no course code and the parser returns, with `parsed = true`, the
tree `{"and": ["CSE 1010", {"and": []}]}`, which contains an empty node. -/
theorem empty_group_yields_empty_node :
    parse "CSE 1010 and (honors)".data =
      (some (.andE [.leaf "CSE 1010".data, .andE []]), true) ∧
    hasEmptyNode (.andE [.leaf "CSE 1010".data, .andE []]) = true := by
  refine ⟨rfl, by decide⟩

/-- C3, amended. No `And`/`Or` node of a returned tree has zero children,
provided every parenthesized group of the cleaned text contains at least
one course code (the inner node built for a course-free group is empty). -/
theorem no_empty_nodes_when_groups_have_courses (s : List Char) (t : Expr) (b : Bool)
    (h : parse s = (some t, b))
    (hg : ∀ trip ∈ parenGroups (clean_text s), (extract_courses trip.2.1).isEmpty = false) :
    hasEmptyNode t = false := by
  obtain ⟨hst, hcne, -⟩ := parse_some_inv h
  rcases determine_structure_inv hst with rfl | rfl | ⟨bg, g, ag, hgs, inner, hinner, hsh⟩
  · exact (hasEmptyNode_node_of_courses _ hcne).1
  · exact (hasEmptyNode_node_of_courses _ hcne).2
  · have hgc : (extract_courses g).isEmpty = false := by
      have := hg (bg, g, ag) (by rw [hgs]; simp)
      simpa using this
    have hinnerE : hasEmptyNode inner = false := by
      rcases hinner with rfl | rfl
      · exact (hasEmptyNode_node_of_courses _ hgc).2
      · exact (hasEmptyNode_node_of_courses _ hgc).1
    rcases hsh with rfl | rfl | rfl
    · simp [hasEmptyNode, hasEmptyNodeList_append, hasEmptyNodeList_map_leaf,
            hasEmptyNodeList, hinnerE]
    · simp [hasEmptyNode, hasEmptyNodeList_append, hasEmptyNodeList_map_leaf,
            hasEmptyNodeList, hinnerE]
    · exact hinnerE

/-- C3, witness for the amended theorem, at the spec's scenario 3. -/
theorem no_empty_nodes_when_groups_have_courses_wit :
    hasEmptyNode (.andE [.leaf "CSE 2100".data,
                         .orE [.leaf "MATH 2210Q".data, .leaf "MATH 2410Q".data]]) = false :=
  no_empty_nodes_when_groups_have_courses
    "CSE 2100 and (MATH 2210Q or MATH 2410Q)".data _ true rfl (by decide)

/-- C4. `parse` is total on strings and every result has one of the three
legal shapes `(null, true)`, `(null, false)` or `(tree, true)`: a failure to
structure the text surfaces as `(null, false)`, never as an exception (the
embedding is a total function, as every operation the Python body performs
on a string argument is total, so the `except` branch is unreachable), and
a tree is never paired with `parsed = false`. -/
theorem parse_result_shapes (s : List Char) :
    parse s = (none, true) ∨ parse s = (none, false) ∨ ∃ t, parse s = (some t, true) := by
  unfold parse
  split
  · exact Or.inl rfl
  · split
    · split
      · exact Or.inr (Or.inl rfl)
      · exact Or.inl rfl
    · cases hd : determine_structure (clean_text s) (extract_courses (clean_text s)) with
      | none => exact Or.inr (Or.inl rfl)
      | some t => exact Or.inr (Or.inr ⟨t, rfl⟩)

/-- C5. Whenever `parse` returns a tree, every leaf of that tree satisfies
the canonical course-code grammar `^[A-Z]{2,6} \d{3,4}[A-Z]?$`. -/
theorem parse_leaves_canonical (s : List Char) (t : Expr) (b : Bool)
    (h : parse s = (some t, b)) : leavesCanonical t = true := by
  obtain ⟨hst, -, -⟩ := parse_some_inv h
  rcases determine_structure_inv hst with rfl | rfl | ⟨bg, g, ag, hgs, inner, hinner, hsh⟩
  · exact leavesCanonicalList_map_leaf _ (extract_courses_canonical _)
  · exact leavesCanonicalList_map_leaf _ (extract_courses_canonical _)
  · have hinnerC : leavesCanonical inner = true := by
      rcases hinner with rfl | rfl <;>
        exact leavesCanonicalList_map_leaf _ (extract_courses_canonical _)
    rcases hsh with rfl | rfl | rfl
    · simp [leavesCanonical, leavesCanonicalList_append, leavesCanonicalList, hinnerC,
            leavesCanonicalList_map_leaf _ (extract_courses_canonical _)]
    · simp [leavesCanonical, leavesCanonicalList_append, leavesCanonicalList, hinnerC,
            leavesCanonicalList_map_leaf _ (extract_courses_canonical _)]
    · exact hinnerC

/-- C5, witness at the spec's scenario 1. -/
theorem parse_leaves_canonical_wit :
    leavesCanonical (.andE [.leaf "CSE 1010".data, .leaf "CSE 1729".data]) = true :=
  parse_leaves_canonical "CSE 1010 and CSE 1729".data _ true rfl

/-- C6. The course pattern `\b([A-Z]{2,6})\s*(\d{3,4}[A-Z]?)\b` allows only
whitespace between the letters and the digits, so a hyphenated code such as
`"CSE-2100"` is not matched at all — although the repository's own test
(`test_extract_courses_various_formats`) asserts
`_extract_courses("CSE-2100") != []`, and the spec states that an internal
hyphen is accepted and normalized.  Consequently `parse "CSE-1010"` finds
no course and returns `(null, true)` instead of a tree with leaf
`"CSE 1010"`; codes with whitespace or nothing between the parts are
extracted and normalized as described. -/
theorem hyphen_course_not_extracted :
    extract_courses "CSE-2100".data = [] ∧
    parse "CSE-1010".data = (none, true) ∧
    extract_courses "CSE 2100".data = ["CSE 2100".data] ∧
    extract_courses "CSE2100".data = ["CSE 2100".data] ∧
    extract_courses "cse 1010".data = ["CSE 1010".data] :=
  ⟨rfl, rfl, rfl, rfl, rfl⟩

/-- C7. For every input from which course extraction finds no course code,
`parse` returns a null tree, and the flag is `false` exactly when some
qualitative requirement phrase of the fixed vocabulary is present in the
cleaned text (case-insensitively): the flag is the emptiness of the
detected-keyword list. -/
theorem no_courses_parse_flag (s : List Char)
    (h : (extract_courses (clean_text s)).isEmpty = true) :
    parse s = (none, (extract_non_course_requirements (clean_text s)).isEmpty) := by
  unfold parse
  split
  · rename_i hstrip
    rw [clean_text_nil hstrip]
    rfl
  · cases hreq : (extract_non_course_requirements (clean_text s)).isEmpty <;> rfl

/-- C7, witness at the spec's scenario 6: a qualitative phrase and no
course code give `(null, false)`. -/
theorem no_courses_parse_flag_wit :
    parse "Permission of instructor required".data =
      (none, (extract_non_course_requirements
        (clean_text "Permission of instructor required".data)).isEmpty) ∧
    (extract_non_course_requirements
      (clean_text "Permission of instructor required".data)).isEmpty = false :=
  ⟨no_courses_parse_flag _ (by decide), by decide⟩

/-- C8. Whenever the non-nested group matcher finds two or more
parenthesized groups in the cleaned text and course extraction finds at
least one course code, `parse` refuses and returns `(null, false)`. -/
theorem multiple_groups_refused (s : List Char)
    (h2 : 2 ≤ (parenGroups (clean_text s)).length)
    (hc : (extract_courses (clean_text s)).isEmpty = false) :
    parse s = (none, false) := by
  have hpar : hasSub "(".data (clean_text s) = true := by
    have hne : parenGroups (clean_text s) ≠ [] := by
      intro he
      rw [he] at h2
      simp at h2
    exact (hasSub_single _ _).2 (scanParen_mem _ _ _ hne)
  unfold parse
  split
  · rename_i hstrip
    rw [clean_text_nil hstrip] at hc
    exact absurd hc (by decide)
  · split
    · rename_i hcemp
      rw [hcemp] at hc
      exact absurd hc (by decide)
    · have hd : determine_structure (clean_text s) (extract_courses (clean_text s)) = none := by
        unfold determine_structure
        rw [if_pos hpar]
        unfold parse_nested
        rcases hgs : parenGroups (clean_text s) with - | ⟨⟨bg1, g1, ag1⟩, - | ⟨⟨bg2, g2, ag2⟩, rest⟩⟩
        · rw [hgs] at h2; simp at h2
        · rw [hgs] at h2; simp at h2
        · rfl
      rw [hd]
      rfl

/-- C8, witness: two groups and two courses are refused. -/
theorem multiple_groups_refused_wit :
    parse "(CSE 1010) and (CSE 1729)".data = (none, false) :=
  multiple_groups_refused _ (by decide) (by decide)

/-- C9. Corequisite extraction finds the keyword `corequisite(s)`
case-insensitively, with an optional colon and surrounding whitespace,
captures the span up to the next `.`/`;` or the end of the text, and
returns the course codes extracted from that span: on
`"Corequisite: CSE 1010"` it returns `["CSE 1010"]`; the plural keyword,
a missing colon and the stop at sentence punctuation behave as described. -/
theorem extract_corequisites_runs :
    extract_corequisites "Corequisite: CSE 1010".data = some ["CSE 1010".data] ∧
    extract_corequisites "Corequisites: CSE 1010 and CSE 1729".data =
      some ["CSE 1010".data, "CSE 1729".data] ∧
    extract_corequisites "Prereq none. corequisites MATH 1131Q; also CSE 1010".data =
      some ["MATH 1131Q".data] ∧
    extract_corequisites "no coreqs here".data = none :=
  ⟨rfl, rfl, rfl, rfl⟩

/-- C10. `extract_corequisites` never returns an empty list: the result is
`None` or a non-empty list of course codes. -/
theorem extract_corequisites_not_empty_list (text : List Char) :
    extract_corequisites text = none ∨
    ∃ c cs, extract_corequisites text = some (c :: cs) := by
  cases hr : extract_corequisites text with
  | none => exact Or.inl rfl
  | some l =>
    cases l with
    | cons c cs => exact Or.inr ⟨c, cs, rfl⟩
    | nil =>
      exfalso
      unfold extract_corequisites at hr
      split at hr
      · exact absurd hr (by simp)
      · cases hs : coreqSearch (text.length + 1) text with
        | none => rw [hs] at hr; exact absurd hr (by simp)
        | some captured =>
          rw [hs] at hr
          simp only at hr
          split at hr
          · exact absurd hr (by simp)
          · rename_i hne
            rw [Option.some_inj] at hr
            rw [hr] at hne
            exact hne rfl

end CourseCrusader
